import Mathlib

/-!
Verification of the infnoise Go driver (github.com/coalaura/infnoise).

A shallow embedding of the pure heart of the driver:

* the precomputed 512-byte output pattern built in `New` (infnoise.go),
* the raw-byte to bit decoding loop of `readRawLocked` (infnoise.go),
* the whitening loop of `Device.Read` (infnoise.go) with the cSHAKE sponge
  abstracted as an arbitrary deterministic squeeze function,
* the ring-buffer append step of the background `readerLoop`
  (the asynchronous Linux transport),
* the `HealthCheck` entropy estimator (`Add`, `IsHealthy`).

Machine bytes are modelled as `Nat` (every hardware byte is < 256; the
decode path only inspects single bits, so no wraparound arises).  The Go
`float64` arithmetic of `HealthCheck` is modelled over `ℝ`; the claims
settled about it concern only which terms enter the sums, never rounding.
-/

namespace Infnoise

/-! ### Wire-protocol constants (infnoise.go) -/

def COMP1 : ℕ := 1
def COMP2 : ℕ := 4
def SWEN1 : ℕ := 2
def SWEN2 : ℕ := 0

def ADDR0 : ℕ := 3
def ADDR1 : ℕ := 5
def ADDR2 : ℕ := 6
def ADDR3 : ℕ := 7

/-- All bits are outputs except COMP1 and COMP2: 0xFF without bits 1 and 4. -/
def Mask : ℕ := 0xED

def BufLen : ℕ := 512

def IOBatch : ℕ := BufLen * 64

def WhitenedChunkSize : ℕ := 2048

/-! ### BitCodec: the output pattern (`New`, infnoise.go lines 62-74) -/

/-- `makeAddress` from infnoise.go: map a 4-bit address to its wire bit
positions ADDR0..ADDR3. -/
def makeAddress (addr : ℕ) : ℕ :=
  (if addr &&& 1 ≠ 0 then 1 <<< ADDR0 else 0) |||
  (if addr &&& 2 ≠ 0 then 1 <<< ADDR1 else 0) |||
  (if addr &&& 4 ≠ 0 then 1 <<< ADDR2 else 0) |||
  (if addr &&& 8 ≠ 0 then 1 <<< ADDR3 else 0)

/-- The pattern byte written for slot `i`, as built by the loop in `New`:
the parity-selected sample-enable bit ORed with the address bits of
`i mod 16`.  (No other term is ORed in.) -/
def outPattern (i : ℕ) : ℕ :=
  (if i &&& 1 = 1 then 1 <<< SWEN2 else 1 <<< SWEN1) ||| makeAddress (i &&& 0x0f)

/-! ### BitCodec: decoding (`readRawLocked` inner loop, infnoise.go 199-223) -/

/-- The comparator bit contributed by the raw byte at position `j` (within
its 8-byte group) of value `v`: odd positions take COMP1, even positions
take COMP2. -/
def compBit (j v : ℕ) : ℕ :=
  if j &&& 1 = 1 then (v >>> COMP1) &&& 1 else (v >>> COMP2) &&& 1

/-- Decode one 8-byte raw group into one output byte, shifting bits in
MSB-first exactly as the `for j` loop of `readRawLocked` does. -/
def decodeGroup (g : List ℕ) : ℕ :=
  (List.range 8).foldl (fun b j => (b <<< 1) ||| compBit j (g.getD j 0)) 0

/-- Decode a whole raw buffer: one output byte per consecutive 8-byte
group (the `for i` loop of `readRawLocked`). -/
def decodeRaw (raw : List ℕ) : List ℕ :=
  (List.range (raw.length / 8)).map (fun i => decodeGroup ((raw.drop (8 * i)).take 8))

/-! ### `readRawLocked` (infnoise.go 174-229)

The loop body: each iteration computes `needIn = min(needOut*8, len(inBulk))
&^ 7`, performs one write/read exchange of `needIn` bytes, and decodes
`outCount = min(needIn/8, needOut)` bytes.  Two renderings of the same
loop follow: `rawReadS` over an infallible byte stream (the transport
delivers `s off, s (off+1), ...`), used for the whitening claims, and
`readRawScript` over a script of per-exchange outcomes, used for the
error-handling claims. -/

/-- `needIn &= ^7` from readRawLocked: clear the low three bits. -/
def alignDown8 (n : ℕ) : ℕ := n - n % 8

/-- `readRawLocked` over an infallible transport byte stream `s`; `off` is
the index of the next transport byte, `remaining` the number of decoded
bytes still owed (`len(p) - n`).  Returns the decoded bytes and the new
stream offset. -/
def rawReadS (s : ℕ → ℕ) (off remaining : ℕ) : List ℕ × ℕ :=
  if remaining = 0 then ([], off)
  else
    let needIn := alignDown8 (min (remaining * 8) IOBatch)
    if _h : needIn = 0 then ([], off)
    else
      let outCount := min (needIn / 8) remaining
      let bytes := (List.range outCount).map
        (fun i => decodeGroup ((List.range 8).map (fun j => s (off + 8 * i + j))))
      let res := rawReadS s (off + needIn) (remaining - outCount)
      (bytes ++ res.1, res.2)
termination_by remaining
decreasing_by
  unfold alignDown8 IOBatch BufLen at *
  omega

/-- `readRawLocked` over a transport script: `tr k` is the outcome of the
`k`-th write/read exchange, either a hardware error (from `write` or
`read`) or the `needIn` bytes delivered (indexed from 0 within the
exchange).  Returns the decoded bytes, the error if one occurred, and the
next exchange index. -/
def readRawScript (tr : ℕ → Except String (ℕ → ℕ)) (k remaining : ℕ) :
    List ℕ × Option String × ℕ :=
  if remaining = 0 then ([], none, k)
  else
    let needIn := alignDown8 (min (remaining * 8) IOBatch)
    if _h : needIn = 0 then ([], none, k)
    else
      match tr k with
      | .error e => ([], some e, k + 1)
      | .ok f =>
        let outCount := min (needIn / 8) remaining
        let bytes := (List.range outCount).map
          (fun i => decodeGroup ((List.range 8).map (fun j => f (8 * i + j))))
        let res := readRawScript tr (k + 1) (remaining - outCount)
        (bytes ++ res.1, res.2)
termination_by remaining
decreasing_by
  unfold alignDown8 IOBatch BufLen at *
  omega

/-- The decoded-byte count of `rawReadS` equals the requested count: with an
infallible transport, `readRawLocked` always fills the caller's buffer. -/
theorem rawReadS_length (s : ℕ → ℕ) (off remaining : ℕ) :
    (rawReadS s off remaining).1.length = remaining := by
  induction off, remaining using rawReadS.induct s with
  | case1 off => simp [rawReadS]
  | case2 off remaining h1 needIn hz =>
    exfalso
    have hIn : needIn = alignDown8 (min (remaining * 8) IOBatch) := rfl
    rw [hIn] at hz
    unfold alignDown8 IOBatch BufLen at hz
    omega
  | case3 off remaining h1 needIn hni outCount ih =>
    have hIn : needIn = alignDown8 (min (remaining * 8) IOBatch) := rfl
    have hOc : outCount = min (needIn / 8) remaining := rfl
    have hni' : ¬ alignDown8 (min (remaining * 8) IOBatch) = 0 := hni
    rw [rawReadS, if_neg h1, dif_neg hni']
    simp only [List.length_append, List.length_map, List.length_range]
    rw [← hIn, ← hOc, ih]
    omega

/-- `rawReadS` consumes exactly 8 transport bytes per decoded byte. -/
theorem rawReadS_offset (s : ℕ → ℕ) (off remaining : ℕ) :
    (rawReadS s off remaining).2 = off + 8 * remaining := by
  induction off, remaining using rawReadS.induct s with
  | case1 off => simp [rawReadS]
  | case2 off remaining h1 needIn hz =>
    exfalso
    have hIn : needIn = alignDown8 (min (remaining * 8) IOBatch) := rfl
    rw [hIn] at hz
    unfold alignDown8 IOBatch BufLen at hz
    omega
  | case3 off remaining h1 needIn hni outCount ih =>
    have hIn : needIn = alignDown8 (min (remaining * 8) IOBatch) := rfl
    have hOc : outCount = min (needIn / 8) remaining := rfl
    have hni' : ¬ alignDown8 (min (remaining * 8) IOBatch) = 0 := hni
    rw [rawReadS, if_neg h1, dif_neg hni']
    simp only
    rw [← hIn, ← hOc, ih]
    unfold alignDown8 IOBatch BufLen at hIn
    omega

/-- `rawReadS` reads only the transport bytes below its final offset: two
streams that agree there produce identical results. -/
theorem rawReadS_congr (s1 s2 : ℕ → ℕ) (off remaining : ℕ)
    (hag : ∀ i, i < off + 8 * remaining → s1 i = s2 i) :
    rawReadS s1 off remaining = rawReadS s2 off remaining := by
  induction off, remaining using rawReadS.induct s1 with
  | case1 off => simp [rawReadS]
  | case2 off remaining h1 needIn hz =>
    exfalso
    have hIn : needIn = alignDown8 (min (remaining * 8) IOBatch) := rfl
    rw [hIn] at hz
    unfold alignDown8 IOBatch BufLen at hz
    omega
  | case3 off remaining h1 needIn hni outCount ih =>
    have hIn : needIn = alignDown8 (min (remaining * 8) IOBatch) := rfl
    have hOc : outCount = min (needIn / 8) remaining := rfl
    have hni' : ¬ alignDown8 (min (remaining * 8) IOBatch) = 0 := hni
    have hb : needIn = 8 * outCount := by
      rw [hOc, hIn]
      unfold alignDown8 IOBatch BufLen at hni' ⊢
      omega
    have hoc : outCount ≤ remaining := by
      rw [hOc]
      omega
    conv_lhs => rw [rawReadS]
    conv_rhs => rw [rawReadS]
    simp only [if_neg h1, dif_neg hni']
    rw [← hIn, ← hOc]
    have hbytes :
        (List.range outCount).map
          (fun i => decodeGroup ((List.range 8).map (fun j => s1 (off + 8 * i + j)))) =
        (List.range outCount).map
          (fun i => decodeGroup ((List.range 8).map (fun j => s2 (off + 8 * i + j)))) := by
      apply List.map_congr_left
      intro i hi
      rw [List.mem_range] at hi
      congr 1
      apply List.map_congr_left
      intro j hj
      rw [List.mem_range] at hj
      apply hag
      omega
    have hrec : rawReadS s1 (off + needIn) (remaining - outCount) =
        rawReadS s2 (off + needIn) (remaining - outCount) := by
      apply ih
      intro i hi
      apply hag
      omega
    rw [hbytes, hrec]

/-- An error-free `readRawScript` run fills the caller's buffer exactly
(`readRawLocked` only stops short by returning a transport error). -/
theorem readRawScript_ok_length (tr : ℕ → Except String (ℕ → ℕ)) (k remaining : ℕ) :
    (readRawScript tr k remaining).2.1 = none →
    (readRawScript tr k remaining).1.length = remaining := by
  induction k, remaining using readRawScript.induct tr with
  | case1 k => simp [readRawScript]
  | case2 k remaining h1 needIn hz =>
    exfalso
    have hIn : needIn = alignDown8 (min (remaining * 8) IOBatch) := rfl
    rw [hIn] at hz
    unfold alignDown8 IOBatch BufLen at hz
    omega
  | case3 k remaining h1 needIn hni e hf =>
    have hni' : ¬ alignDown8 (min (remaining * 8) IOBatch) = 0 := hni
    rw [readRawScript, if_neg h1, dif_neg hni', hf]
    exact fun h => absurd h (by simp)
  | case4 k remaining h1 needIn hni f hf outCount ih =>
    have hni' : ¬ alignDown8 (min (remaining * 8) IOBatch) = 0 := hni
    have hIn : needIn = alignDown8 (min (remaining * 8) IOBatch) := rfl
    have hOc : outCount = min (needIn / 8) remaining := rfl
    rw [readRawScript, if_neg h1, dif_neg hni', hf]
    intro hok
    simp only at hok
    simp only [List.length_append, List.length_map, List.length_range]
    rw [← hIn, ← hOc, ih hok]
    omega

/-- An error returned by `readRawScript` is one of the transport's own
errors (`readRawLocked` never masks or rewrites them). -/
theorem readRawScript_err_mem (tr : ℕ → Except String (ℕ → ℕ)) (k remaining : ℕ) :
    ∀ e, (readRawScript tr k remaining).2.1 = some e → ∃ j, tr j = Except.error e := by
  induction k, remaining using readRawScript.induct tr with
  | case1 k => simp [readRawScript]
  | case2 k remaining h1 needIn hz =>
    exfalso
    have hIn : needIn = alignDown8 (min (remaining * 8) IOBatch) := rfl
    rw [hIn] at hz
    unfold alignDown8 IOBatch BufLen at hz
    omega
  | case3 k remaining h1 needIn hni e hf =>
    have hni' : ¬ alignDown8 (min (remaining * 8) IOBatch) = 0 := hni
    rw [readRawScript, if_neg h1, dif_neg hni', hf]
    intro e' he'
    simp only [Option.some.injEq] at he'
    exact ⟨k, by rw [hf, he']⟩
  | case4 k remaining h1 needIn hni f hf outCount ih =>
    have hni' : ¬ alignDown8 (min (remaining * 8) IOBatch) = 0 := hni
    rw [readRawScript, if_neg h1, dif_neg hni', hf]
    intro e he
    simp only at he
    exact ih e he

/-! ### Whitener: `Device.Read` (infnoise.go 103-146)

The cSHAKE-256 sponge is modelled extensionally: its state is the list of
chunks absorbed so far (`sponge.Write` appends a chunk), and an arbitrary
deterministic function `squeeze` maps that history to the infinite output
stream of the cloned state (`sponge.Clone(); clone.Read(...)` reads its
prefix).  Nothing about the concrete cSHAKE permutation matters for the
claims below. -/

/-- The whitening state inside `Device` that `Read` manipulates: the pool
of squeezed-but-unserved bytes, the pending raw bytes, and the sponge
absorption history. -/
structure WDevice where
  pool : List ℕ
  rawPool : List ℕ
  absorbed : List (List ℕ)

/-- The state of a freshly constructed `Device` (`New`, infnoise.go 50-60):
empty pool, empty raw pool, nothing absorbed. -/
def freshWDevice : WDevice := ⟨[], [], []⟩

/-- One whitening round (infnoise.go 134-142): absorb
`rawPool[:WhitenedChunkSize]` into the sponge, then squeeze
`WhitenedChunkSize` bytes (`poolBuf`) from a clone of the post-absorption
state.  Returns the new absorption history and the refilled pool. -/
def whitenRound (squeeze : List (List ℕ) → ℕ → ℕ) (absorbed : List (List ℕ))
    (rp : List ℕ) : List (List ℕ) × List ℕ :=
  let chunks := absorbed ++ [rp.take WhitenedChunkSize]
  (chunks, (List.range WhitenedChunkSize).map (squeeze chunks))

/-- The pool refilled by a whitening round holds exactly
`WhitenedChunkSize` squeezed bytes. -/
theorem whitenRound_pool_length (squeeze : List (List ℕ) → ℕ → ℕ)
    (absorbed : List (List ℕ)) (rp : List ℕ) :
    (whitenRound squeeze absorbed rp).2.length = WhitenedChunkSize := by
  simp only [whitenRound, List.length_map, List.length_range]

/-- The raw-fetch step of `Device.Read` (infnoise.go 124-132): compute
`rawNeeded = WhitenedChunkSize - len(rawPool)` and, if positive, pull that
many decoded raw bytes via `readRawLocked` and append them to the raw
pool.  Returns the extended raw pool and the new stream offset. -/
def fetchRaw (s : ℕ → ℕ) (off : ℕ) (rawPool : List ℕ) : List ℕ × ℕ :=
  let rawNeeded := WhitenedChunkSize - rawPool.length
  if 0 < rawNeeded then
    let fr := rawReadS s off rawNeeded
    (rawPool ++ fr.1, fr.2)
  else (rawPool, off)

/-- After a fetch the raw pool always holds at least `WhitenedChunkSize`
bytes (the transport model is infallible, so `readRawLocked` fills its
buffer). -/
theorem fetchRaw_length (s : ℕ → ℕ) (off : ℕ) (rawPool : List ℕ) :
    WhitenedChunkSize ≤ (fetchRaw s off rawPool).1.length := by
  simp only [fetchRaw]
  split
  next h =>
    simp only [List.length_append, rawReadS_length]
    omega
  next h =>
    simpa using h

/-- The loop of `Device.Read` (infnoise.go 111-143) over an infallible
transport stream `s`: serve from the pool while it is nonempty; otherwise
fetch raw bytes until `WhitenedChunkSize` accumulate, absorb them, refill
the pool from a clone of the sponge, and continue.  Returns the whitened
bytes delivered to the caller, the final device state, and the final
stream offset. -/
def deviceRead (squeeze : List (List ℕ) → ℕ → ℕ) (s : ℕ → ℕ)
    (d : WDevice) (off need : ℕ) : List ℕ × WDevice × ℕ :=
  if need = 0 then ([], d, off)
  else if _hpool : d.pool = [] then
    let fo := fetchRaw s off d.rawPool
    if _hr : WhitenedChunkSize ≤ fo.1.length then
      let ar := whitenRound squeeze d.absorbed fo.1
      deviceRead squeeze s ⟨ar.2, [], ar.1⟩ fo.2 need
    else
      deviceRead squeeze s ⟨[], fo.1, d.absorbed⟩ fo.2 need
  else
    let todo := min d.pool.length need
    let res := deviceRead squeeze s ⟨d.pool.drop todo, d.rawPool, d.absorbed⟩ off (need - todo)
    (d.pool.take todo ++ res.1, res.2)
termination_by (need, WhitenedChunkSize + 1 - d.pool.length)
decreasing_by
  · apply Prod.Lex.right
    rw [whitenRound_pool_length]
    rw [_hpool]
    norm_num [WhitenedChunkSize]
  · exact absurd (fetchRaw_length s off d.rawPool) _hr
  · apply Prod.Lex.left
    have : d.pool.length ≠ 0 := fun hl => _hpool (List.length_eq_zero.mp hl)
    omega

/-- The loop of `Device.Read` (infnoise.go 111-143) over a FALLIBLE
transport script (the same per-exchange script used by `readRawScript`),
keeping the pool state: serve from the pool while nonempty; otherwise, if
`rawNeeded = WhitenedChunkSize - len(rawPool)` is positive, pull that many
raw bytes via `readRawLocked` — if that fetch returns a transport error,
the call returns immediately with the bytes already served, the error,
and the device state UNCHANGED by the failing iteration (the Go code
checks `rerr != nil` before appending, so the fetched bytes are
discarded); otherwise append, then absorb and refill the pool whenever a
full `WhitenedChunkSize` has accumulated.  Returns (served bytes, device
state, next exchange index, error). -/
def deviceReadE (squeeze : List (List ℕ) → ℕ → ℕ) (tr : ℕ → Except String (ℕ → ℕ))
    (d : WDevice) (k need : ℕ) : List ℕ × WDevice × ℕ × Option String :=
  if need = 0 then ([], d, k, none)
  else if _hpool : d.pool = [] then
    if hrn : 0 < WhitenedChunkSize - d.rawPool.length then
      let fr := readRawScript tr k (WhitenedChunkSize - d.rawPool.length)
      match hfr : fr.2.1 with
      | some e => ([], d, fr.2.2, some e)
      | none =>
        let rp := d.rawPool ++ fr.1
        if hr1 : WhitenedChunkSize ≤ rp.length then
          let ar := whitenRound squeeze d.absorbed rp
          deviceReadE squeeze tr ⟨ar.2, [], ar.1⟩ fr.2.2 need
        else
          deviceReadE squeeze tr ⟨[], rp, d.absorbed⟩ fr.2.2 need
    else
      if hr2 : WhitenedChunkSize ≤ d.rawPool.length then
        let ar := whitenRound squeeze d.absorbed d.rawPool
        deviceReadE squeeze tr ⟨ar.2, [], ar.1⟩ k need
      else
        deviceReadE squeeze tr d k need
  else
    let todo := min d.pool.length need
    let res := deviceReadE squeeze tr ⟨d.pool.drop todo, d.rawPool, d.absorbed⟩ k (need - todo)
    (d.pool.take todo ++ res.1, res.2.1, res.2.2)
termination_by (need, WhitenedChunkSize + 1 - d.pool.length)
decreasing_by
  · apply Prod.Lex.right
    rw [whitenRound_pool_length]
    rw [_hpool]
    norm_num [WhitenedChunkSize]
  · exfalso
    apply hr1
    have hlen := readRawScript_ok_length tr k (WhitenedChunkSize - d.rawPool.length) hfr
    rw [List.length_append, hlen]
    omega
  · apply Prod.Lex.right
    rw [whitenRound_pool_length]
    rw [_hpool]
    norm_num [WhitenedChunkSize]
  · exfalso
    unfold WhitenedChunkSize at *
    omega
  · apply Prod.Lex.left
    have : d.pool.length ≠ 0 := fun hl => _hpool (List.length_eq_zero.mp hl)
    omega

/-- Unfolding `deviceReadE` at `need = 0`. -/
theorem deviceReadE_zero (squeeze : List (List ℕ) → ℕ → ℕ)
    (tr : ℕ → Except String (ℕ → ℕ)) (d : WDevice) (k : ℕ) :
    deviceReadE squeeze tr d k 0 = ([], d, k, none) := by
  rw [deviceReadE, if_pos rfl]

/-- Unfolding `deviceReadE` when the pool is empty and the raw fetch
fails: the error is returned as-is and the device state is unchanged. -/
theorem deviceReadE_err (squeeze : List (List ℕ) → ℕ → ℕ)
    (tr : ℕ → Except String (ℕ → ℕ)) (d : WDevice) (k need : ℕ) (e : String)
    (h1 : ¬ need = 0) (hpool : d.pool = [])
    (hrn : 0 < WhitenedChunkSize - d.rawPool.length)
    (hfr : (readRawScript tr k (WhitenedChunkSize - d.rawPool.length)).2.1 = some e) :
    deviceReadE squeeze tr d k need =
      ([], d, (readRawScript tr k (WhitenedChunkSize - d.rawPool.length)).2.2, some e) := by
  rw [deviceReadE, if_neg h1, dif_pos hpool, dif_pos hrn]
  dsimp only
  split
  next e' heq =>
    rw [hfr] at heq
    cases heq
    rfl
  next heq =>
    rw [hfr] at heq
    exact absurd heq (by simp)

/-- Unfolding `deviceReadE` when the pool is empty, the raw fetch
succeeds, and a full chunk has accumulated: absorb and continue. -/
theorem deviceReadE_ok_absorb (squeeze : List (List ℕ) → ℕ → ℕ)
    (tr : ℕ → Except String (ℕ → ℕ)) (d : WDevice) (k need : ℕ)
    (h1 : ¬ need = 0) (hpool : d.pool = [])
    (hrn : 0 < WhitenedChunkSize - d.rawPool.length)
    (hfr : (readRawScript tr k (WhitenedChunkSize - d.rawPool.length)).2.1 = none)
    (hr1 : WhitenedChunkSize ≤
      (d.rawPool ++ (readRawScript tr k (WhitenedChunkSize - d.rawPool.length)).1).length) :
    deviceReadE squeeze tr d k need =
      deviceReadE squeeze tr
        ⟨(whitenRound squeeze d.absorbed
            (d.rawPool ++ (readRawScript tr k (WhitenedChunkSize - d.rawPool.length)).1)).2,
          [],
          (whitenRound squeeze d.absorbed
            (d.rawPool ++ (readRawScript tr k (WhitenedChunkSize - d.rawPool.length)).1)).1⟩
        (readRawScript tr k (WhitenedChunkSize - d.rawPool.length)).2.2 need := by
  rw [deviceReadE, if_neg h1, dif_pos hpool, dif_pos hrn]
  dsimp only
  split
  next e' heq =>
    rw [hfr] at heq
    exact absurd heq.symm (by simp)
  next heq =>
    rw [dif_pos hr1]

/-- Unfolding `deviceReadE` when the pool is empty and the raw pool
already holds a full chunk (no fetch needed): absorb and continue. -/
theorem deviceReadE_nofetch_absorb (squeeze : List (List ℕ) → ℕ → ℕ)
    (tr : ℕ → Except String (ℕ → ℕ)) (d : WDevice) (k need : ℕ)
    (h1 : ¬ need = 0) (hpool : d.pool = [])
    (hrn : ¬ 0 < WhitenedChunkSize - d.rawPool.length)
    (hr2 : WhitenedChunkSize ≤ d.rawPool.length) :
    deviceReadE squeeze tr d k need =
      deviceReadE squeeze tr
        ⟨(whitenRound squeeze d.absorbed d.rawPool).2, [],
          (whitenRound squeeze d.absorbed d.rawPool).1⟩ k need := by
  rw [deviceReadE, if_neg h1, dif_pos hpool, dif_neg hrn, dif_pos hr2]

/-- Unfolding `deviceReadE` in the pool-drain branch. -/
theorem deviceReadE_drain (squeeze : List (List ℕ) → ℕ → ℕ)
    (tr : ℕ → Except String (ℕ → ℕ)) (d : WDevice) (k need : ℕ)
    (h1 : ¬ need = 0) (hpool : ¬ d.pool = []) :
    deviceReadE squeeze tr d k need =
      (d.pool.take (min d.pool.length need) ++
        (deviceReadE squeeze tr
          ⟨d.pool.drop (min d.pool.length need), d.rawPool, d.absorbed⟩ k
          (need - min d.pool.length need)).1,
        (deviceReadE squeeze tr
          ⟨d.pool.drop (min d.pool.length need), d.rawPool, d.absorbed⟩ k
          (need - min d.pool.length need)).2.1,
        (deviceReadE squeeze tr
          ⟨d.pool.drop (min d.pool.length need), d.rawPool, d.absorbed⟩ k
          (need - min d.pool.length need)).2.2) := by
  rw [deviceReadE, if_neg h1, dif_neg hpool]

/-! ### Asynchronous transport: the `readerLoop` ring buffer
(part of the Linux transport, `readerLoop` and its state)

The background drain task holds `rBuf` (a fixed 64 KiB ring), `rHead`,
`rTail`, `count` and the `closed` flag.  For each stripped packet payload
it executes the guarded append of `readerLoop`. -/

def ringBufferSize : ℕ := 64 * 1024

/-- The shared state of the asynchronous transport that `readerLoop`
mutates for each decoded payload. -/
structure RingState where
  rBuf : List ℕ
  rHead : ℕ
  rTail : ℕ
  count : ℕ
  closed : Bool

/-- Write `payload` into the ring starting at `pos`, wrapping at the end of
the buffer (the two-part `copy` in `readerLoop`). -/
def ringWrite (buf : List ℕ) (pos : ℕ) (payload : List ℕ) : List ℕ :=
  match payload with
  | [] => buf
  | v :: rest => ringWrite (buf.set pos v) ((pos + 1) % buf.length) rest

/-- The per-payload append step of `readerLoop`: if the payload fits
(`count + pLen ≤ len(rBuf)`), copy it in at `rHead` and advance
`rHead`/`count`; otherwise the body is skipped — the state is returned
unchanged, the payload is discarded, and `closed` is not touched. -/
def readerAppend (r : RingState) (payload : List ℕ) : RingState :=
  if r.count + payload.length ≤ r.rBuf.length then
    { r with
      rBuf := ringWrite r.rBuf r.rHead payload,
      rHead := (r.rHead + payload.length) % r.rBuf.length,
      count := r.count + payload.length }
  else r

/-- A ring whose buffer is completely full (count = capacity). -/
def fullRing : RingState :=
  ⟨List.replicate ringBufferSize 0, 0, 0, ringBufferSize, false⟩

/-! ### HealthCheck (`Add`, `IsHealthy`)

`counts` is the 128-context frequency table (`history` is always masked to
7 bits); `entropySum` is the running surprise total.  The Go `float64`
values are modelled over `ℝ`.  -/

structure HealthCheck where
  counts : ℕ → ℕ → ℕ
  totalBits : ℕ
  window : ℕ
  entropySum : ℝ
  targetEntropy : ℝ
  tolerance : ℝ

/-- The per-bit body of `HealthCheck.Add`: read the two counters of the
current context, add the surprise term when the context has been seen and
the observed value has positive probability, then bump the context/bit
counter and the total-bit count.  (The Go code initialises `prob` to 0.5,
but both branches of the following `if/else` overwrite it, so the value
0.5 is dead.) -/
noncomputable def addBit (h : HealthCheck) (history bit : ℕ) : HealthCheck :=
  let c0 := h.counts history 0
  let c1 := h.counts history 1
  let total := c0 + c1
  let entropySum :=
    if 0 < total then
      let prob : ℝ := if bit = 0 then (c0 : ℝ) / (total : ℝ) else (c1 : ℝ) / (total : ℝ)
      if 0 < prob then h.entropySum + -Real.logb 2 prob else h.entropySum
    else h.entropySum
  { h with
    counts := fun c b => if c = history ∧ b = bit then h.counts c b + 1 else h.counts c b,
    entropySum := entropySum,
    totalBits := h.totalBits + 1 }

/-- The context update of `Add`: `history = ((history << 1) | bit) & 0x7F`. -/
def contextStep (st bit : ℕ) : ℕ := ((st <<< 1) ||| bit) &&& 0x7F

/-- One loop step of `Add`: process the bit, then shift it into the 7-bit
context. -/
noncomputable def addStep (p : HealthCheck × ℕ) (bit : ℕ) : HealthCheck × ℕ :=
  (addBit p.1 p.2 bit, contextStep p.2 bit)

/-- The bits of one data byte, MSB-first, as extracted by the inner loop of
`Add` (`bit = (b >> (7-i)) & 1`). -/
def byteBits (b : ℕ) : List ℕ := (List.range 8).map (fun i => (b >>> (7 - i)) &&& 1)

/-- Process one data byte MSB-first (`bit = (b >> (7-i)) & 1`). -/
noncomputable def addByte (p : HealthCheck × ℕ) (b : ℕ) : HealthCheck × ℕ :=
  (List.range 8).foldl (fun q i => addStep q ((b >>> (7 - i)) &&& 1)) p

/-- `HealthCheck.Add`: the `history` variable is local to the call and
starts at 0 on every invocation. -/
noncomputable def HealthCheck.Add (h : HealthCheck) (data : List ℕ) : HealthCheck :=
  (data.foldl addByte (h, 0)).1

/-- `HealthCheck.IsHealthy`: unconditionally healthy below the window,
otherwise compare the entropy-per-bit estimate against the target within
the tolerance band. -/
def HealthCheck.IsHealthy (h : HealthCheck) : Prop :=
  if h.totalBits < h.window then True
  else |h.entropySum / (h.totalBits : ℝ) - h.targetEntropy| ≤ h.targetEntropy * h.tolerance

/-- A zero-valued `HealthCheck` with the documented default parameters
(target 0.864, tolerance 0.05, window 80000). -/
noncomputable def initHealth : HealthCheck :=
  ⟨fun _ _ => 0, 0, 80000, 0, 0.864, 0.05⟩

/-- A `HealthCheck` whose window has just been reached (one observed bit,
window 1, all-zero statistics). -/
noncomputable def fullWindowHealth : HealthCheck :=
  ⟨fun _ _ => 0, 1, 1, 0, 0, 0⟩

/-! ### Helper lemmas for the decode characterization -/

/-- Shifting in one bit: `(b << 1) | c = 2*b + c` for a single bit `c`. -/
theorem shiftLeft_or_bit (b c : ℕ) (hc : c ≤ 1) : (b <<< 1) ||| c = 2 * b + c := by
  rw [Nat.shiftLeft_eq, pow_one, Nat.mul_comm]
  interval_cases c
  · simp
  · apply Nat.eq_of_testBit_eq
    intro i
    rw [Nat.testBit_or]
    cases i with
    | zero =>
      simp [Nat.testBit_zero]
      omega
    | succ i =>
      have h1 : Nat.testBit 1 (i + 1) = false := by
        simp [Nat.testBit_succ]
      rw [h1, Bool.or_false]
      rw [Nat.testBit_succ, Nat.testBit_succ]
      congr 1
      omega

theorem compBit_le_one (j v : ℕ) : compBit j v ≤ 1 := by
  unfold compBit
  split <;> exact Nat.and_le_right

/-- The decoded byte in closed form: each raw byte of the group contributes
its comparator bit at the next lower output position (MSB-first). -/
theorem decodeGroup_eq (g : List ℕ) :
    decodeGroup g =
      128 * compBit 0 (g.getD 0 0) + 64 * compBit 1 (g.getD 1 0)
      + 32 * compBit 2 (g.getD 2 0) + 16 * compBit 3 (g.getD 3 0)
      + 8 * compBit 4 (g.getD 4 0) + 4 * compBit 5 (g.getD 5 0)
      + 2 * compBit 6 (g.getD 6 0) + compBit 7 (g.getD 7 0) := by
  have h : ∀ j, compBit j (g.getD j 0) ≤ 1 := fun j => compBit_le_one j (g.getD j 0)
  rw [decodeGroup, show List.range 8 = [0, 1, 2, 3, 4, 5, 6, 7] from rfl]
  simp only [List.foldl]
  rw [shiftLeft_or_bit _ _ (h 0), shiftLeft_or_bit _ _ (h 1), shiftLeft_or_bit _ _ (h 2),
    shiftLeft_or_bit _ _ (h 3), shiftLeft_or_bit _ _ (h 4), shiftLeft_or_bit _ _ (h 5),
    shiftLeft_or_bit _ _ (h 6), shiftLeft_or_bit _ _ (h 7)]
  ring

/-- Extracting output bit `7 - j` of a decoded byte recovers the comparator
bit of raw byte `j`. -/
theorem decodeGroup_extract (g : List ℕ) (j : ℕ) (hj : j < 8) :
    (decodeGroup g >>> (7 - j)) &&& 1 = compBit j (g.getD j 0) := by
  have h0 := compBit_le_one 0 (g.getD 0 0)
  have h1 := compBit_le_one 1 (g.getD 1 0)
  have h2 := compBit_le_one 2 (g.getD 2 0)
  have h3 := compBit_le_one 3 (g.getD 3 0)
  have h4 := compBit_le_one 4 (g.getD 4 0)
  have h5 := compBit_le_one 5 (g.getD 5 0)
  have h6 := compBit_le_one 6 (g.getD 6 0)
  have h7 := compBit_le_one 7 (g.getD 7 0)
  rw [decodeGroup_eq, Nat.shiftRight_eq_div_pow, Nat.and_one_is_mod]
  interval_cases j <;> omega

theorem decodeRaw_getD (raw : List ℕ) (i : ℕ) (hi : i < raw.length / 8) :
    (decodeRaw raw).getD i 0 = decodeGroup ((raw.drop (8 * i)).take 8) := by
  simp [decodeRaw, List.getD_eq_getElem?_getD, List.getElem?_map, List.getElem?_range, hi]

theorem group_getD (raw : List ℕ) (i j : ℕ) (hj : j < 8) :
    ((raw.drop (8 * i)).take 8).getD j 0 = raw.getD (8 * i + j) 0 := by
  simp [List.getD_eq_getElem?_getD, List.getElem?_take, hj, List.getElem?_drop]

/-! ## Claim theorems -/

/-- C1 (counterexample): with the ring completely full, the `readerLoop`
append of a 1-byte payload leaves the state entirely unchanged — the
payload is silently discarded — and the `closed` flag stays `false`, so no
hard error terminates the session, contradicting the claim. -/
theorem readerLoop_overflow_drops_payload :
    fullRing.count = ringBufferSize ∧
    fullRing.rBuf.length = ringBufferSize ∧
    readerAppend fullRing [7] = fullRing ∧
    (readerAppend fullRing [7]).closed = false := by
  have hlen : fullRing.rBuf.length = ringBufferSize := List.length_replicate _ _
  have hcond : ¬ (fullRing.count + ([7] : List ℕ).length ≤ fullRing.rBuf.length) := by
    rw [hlen, show fullRing.count = ringBufferSize from rfl]
    simp only [List.length_cons, List.length_nil]
    omega
  have happ : readerAppend fullRing [7] = fullRing := by
    unfold readerAppend
    rw [if_neg hcond]
  refine ⟨rfl, hlen, happ, ?_⟩
  rw [happ]
  rfl

/-- C1 (amended): the `readerLoop` append never lets `count` exceed the
capacity, but a payload that would overflow is silently discarded: the
ring state is returned unchanged (in particular `closed` is untouched, so
the session continues and no error is raised). -/
theorem readerAppend_overflow_spec (r : RingState) (payload : List ℕ)
    (hcount : r.count ≤ r.rBuf.length) :
    (readerAppend r payload).count ≤ r.rBuf.length ∧
    (r.rBuf.length < r.count + payload.length →
      readerAppend r payload = r ∧ (readerAppend r payload).closed = r.closed) := by
  unfold readerAppend
  split
  next h => exact ⟨h, fun hov => absurd h (by omega)⟩
  next h => exact ⟨hcount, fun _ => ⟨rfl, rfl⟩⟩

/-- C1 (witness for the amended theorem): instantiated at the full ring and
a 1-byte payload. -/
theorem readerAppend_overflow_spec_witness :
    (readerAppend fullRing [7]).count ≤ fullRing.rBuf.length ∧
    (fullRing.rBuf.length < fullRing.count + ([7] : List ℕ).length →
      readerAppend fullRing [7] = fullRing ∧
      (readerAppend fullRing [7]).closed = fullRing.closed) :=
  readerAppend_overflow_spec fullRing [7]
    (by show ringBufferSize ≤ (List.replicate ringBufferSize 0).length
        rw [List.length_replicate])

/-- Helper: the `Device.Read` loop preserves the invariant that every
absorbed chunk has exactly `WhitenedChunkSize` bytes. -/
theorem deviceRead_absorbed_sizes (squeeze : List (List ℕ) → ℕ → ℕ) (s : ℕ → ℕ)
    (d : WDevice) (off need : ℕ) :
    (∀ c ∈ d.absorbed, c.length = WhitenedChunkSize) →
    ∀ c ∈ (deviceRead squeeze s d off need).2.1.absorbed, c.length = WhitenedChunkSize := by
  induction d, off, need using deviceRead.induct squeeze s with
  | case1 d off =>
    intro hinv
    rw [deviceRead, if_pos rfl]
    exact hinv
  | case2 d off need h1 hpool fo hfo ar ih =>
    intro hinv
    have hfo' : WhitenedChunkSize ≤ (fetchRaw s off d.rawPool).1.length := hfo
    rw [deviceRead, if_neg h1, dif_pos hpool, dif_pos hfo']
    apply ih
    intro c hc
    have har : ar.1 = d.absorbed ++ [(fetchRaw s off d.rawPool).1.take WhitenedChunkSize] := rfl
    rw [show ({ pool := ar.2, rawPool := [], absorbed := ar.1 } : WDevice).absorbed = ar.1
      from rfl, har] at hc
    rcases List.mem_append.mp hc with hl | hr
    · exact hinv c hl
    · rw [List.mem_singleton.mp hr, List.length_take]
      omega
  | case3 d off need h1 hpool fo hshort ih =>
    intro hinv
    exact absurd (fetchRaw_length s off d.rawPool) hshort
  | case4 d off need h1 hpool todo ih =>
    intro hinv
    rw [deviceRead, if_neg h1, dif_neg hpool]
    exact ih hinv

/-- C2 (amended): every chunk ever absorbed into the sponge by the
`Device.Read` loop has exactly `WhitenedChunkSize` = 2048 raw bytes (not
256), and every whitening round squeezes exactly `WhitenedChunkSize` =
2048 bytes from the cloned post-absorption state to refill the pool. -/
theorem deviceRead_round_sizes (squeeze : List (List ℕ) → ℕ → ℕ) (s : ℕ → ℕ)
    (d : WDevice) (off need : ℕ)
    (hinv : ∀ c ∈ d.absorbed, c.length = WhitenedChunkSize) :
    (∀ c ∈ (deviceRead squeeze s d off need).2.1.absorbed, c.length = WhitenedChunkSize) ∧
    (∀ chunks rp, (whitenRound squeeze chunks rp).2.length = WhitenedChunkSize) :=
  ⟨deviceRead_absorbed_sizes squeeze s d off need hinv,
    fun chunks rp => whitenRound_pool_length squeeze chunks rp⟩

/-- C2 (witness for the amended theorem): instantiated on a fresh device,
a zero stream and the zero squeeze function, reading one byte. -/
theorem deviceRead_round_sizes_witness :
    (∀ c ∈ (deviceRead (fun _ _ => 0) (fun _ => 0) freshWDevice 0 1).2.1.absorbed,
      c.length = WhitenedChunkSize) ∧
    (∀ chunks rp, (whitenRound (fun _ _ => 0) chunks rp).2.length = WhitenedChunkSize) :=
  deviceRead_round_sizes (fun _ _ => 0) (fun _ => 0) freshWDevice 0 1
    (by intro c hc; simp [freshWDevice] at hc)

/-- Helper: the first `Device.Read` from a fresh device performs exactly
one whitening round, absorbing the 2048-byte raw pool just fetched. -/
theorem deviceRead_fresh_absorbed (squeeze : List (List ℕ) → ℕ → ℕ) (s : ℕ → ℕ) :
    (deviceRead squeeze s freshWDevice 0 1).2.1.absorbed =
      [(fetchRaw s 0 freshWDevice.rawPool).1.take WhitenedChunkSize] := by
  have hfo : WhitenedChunkSize ≤ (fetchRaw s 0 freshWDevice.rawPool).1.length :=
    fetchRaw_length s 0 _
  have hone : ¬ (1 : ℕ) = 0 := by norm_num
  rw [deviceRead, if_neg hone, dif_pos (show freshWDevice.pool = [] from rfl), dif_pos hfo]
  have hchunk : (whitenRound squeeze freshWDevice.absorbed
      (fetchRaw s 0 freshWDevice.rawPool).1).1 =
      [(fetchRaw s 0 freshWDevice.rawPool).1.take WhitenedChunkSize] := by
    simp [whitenRound, freshWDevice]
  generalize har : whitenRound squeeze freshWDevice.absorbed
      (fetchRaw s 0 freshWDevice.rawPool).1 = ar
  rw [har] at hchunk
  have hlen : ar.2.length = WhitenedChunkSize := by
    rw [← har]
    exact whitenRound_pool_length squeeze _ _
  have hne : ¬ ({ pool := ar.2, rawPool := [], absorbed := ar.1 } : WDevice).pool = [] := by
    intro h
    rw [show ({ pool := ar.2, rawPool := [], absorbed := ar.1 } : WDevice).pool = ar.2
      from rfl] at h
    rw [h] at hlen
    simp [WhitenedChunkSize] at hlen
  rw [deviceRead, if_neg hone, dif_neg hne]
  have htodo : min ({ pool := ar.2, rawPool := [], absorbed := ar.1 } : WDevice).pool.length 1
      = 1 := by
    rw [show ({ pool := ar.2, rawPool := [], absorbed := ar.1 } : WDevice).pool.length =
      ar.2.length from rfl, hlen]
    norm_num [WhitenedChunkSize]
  simp only [htodo]
  rw [show (1 : ℕ) - 1 = 0 from rfl, deviceRead, if_pos rfl]
  exact hchunk

/-- C2 (counterexample): in the single whitening round performed by the
first 1-byte `Device.Read` from a fresh device, the chunk absorbed into
the sponge has 2048 raw bytes, not 256. -/
theorem whiten_absorbs_2048_not_256 :
    ((deviceRead (fun _ _ => 0) (fun _ => 0) freshWDevice 0 1).2.1.absorbed.map
      List.length) = [2048] ∧ (2048 : ℕ) ≠ 256 := by
  refine ⟨?_, by norm_num⟩
  rw [deviceRead_fresh_absorbed]
  simp only [List.map_cons, List.map_nil, List.length_take]
  have hge := fetchRaw_length (fun _ => 0) 0 freshWDevice.rawPool
  congr 1
  unfold WhitenedChunkSize at hge ⊢
  omega

/-- Helper: `fetchRaw` never rewinds the transport stream. -/
theorem fetchRaw_off_mono (s : ℕ → ℕ) (off : ℕ) (rp : List ℕ) :
    off ≤ (fetchRaw s off rp).2 := by
  simp only [fetchRaw]
  split
  next h =>
    show off ≤ (rawReadS s off (WhitenedChunkSize - rp.length)).2
    rw [rawReadS_offset]
    omega
  next h => exact Nat.le_refl off

/-- Helper: the `Device.Read` loop never rewinds the transport stream. -/
theorem deviceRead_off_mono (squeeze : List (List ℕ) → ℕ → ℕ) (s : ℕ → ℕ)
    (d : WDevice) (off need : ℕ) :
    off ≤ (deviceRead squeeze s d off need).2.2 := by
  induction d, off, need using deviceRead.induct squeeze s with
  | case1 d off =>
    rw [deviceRead, if_pos rfl]
  | case2 d off need h1 hpool fo hfo ar ih =>
    have hfo1 : WhitenedChunkSize ≤ (fetchRaw s off d.rawPool).1.length := hfo
    rw [deviceRead, if_neg h1, dif_pos hpool, dif_pos hfo1]
    exact le_trans (fetchRaw_off_mono s off d.rawPool) ih
  | case3 d off need h1 hpool fo hshort ih =>
    exact absurd (fetchRaw_length s off d.rawPool) hshort
  | case4 d off need h1 hpool todo ih =>
    rw [deviceRead, if_neg h1, dif_neg hpool]
    exact ih

/-- Helper: `fetchRaw` reads only the stream bytes below its final offset. -/
theorem fetchRaw_congr (s1 s2 : ℕ → ℕ) (off : ℕ) (rp : List ℕ)
    (hag : ∀ i, i < (fetchRaw s1 off rp).2 → s1 i = s2 i) :
    fetchRaw s1 off rp = fetchRaw s2 off rp := by
  have hoffs : (fetchRaw s1 off rp).2 = if 0 < WhitenedChunkSize - rp.length
      then (rawReadS s1 off (WhitenedChunkSize - rp.length)).2 else off := by
    simp only [fetchRaw]
    split
    next h => rfl
    next h => rfl
  by_cases h : 0 < WhitenedChunkSize - rp.length
  · rw [if_pos h] at hoffs
    have hrr : rawReadS s1 off (WhitenedChunkSize - rp.length) =
        rawReadS s2 off (WhitenedChunkSize - rp.length) := by
      apply rawReadS_congr
      intro i hi
      apply hag
      rw [hoffs, rawReadS_offset]
      exact hi
    simp only [fetchRaw, if_pos h, hrr]
  · simp only [fetchRaw, if_neg h]

/-- Helper: the `Device.Read` loop is determined by the stream bytes below
its final offset; for any squeeze function, two streams agreeing there
yield identical results (output, device state and offset). -/
theorem deviceRead_congr (squeeze : List (List ℕ) → ℕ → ℕ) (s1 s2 : ℕ → ℕ)
    (d : WDevice) (off need : ℕ) :
    (∀ i, i < (deviceRead squeeze s1 d off need).2.2 → s1 i = s2 i) →
    deviceRead squeeze s1 d off need = deviceRead squeeze s2 d off need := by
  induction d, off, need using deviceRead.induct squeeze s1 with
  | case1 d off =>
    intro _
    conv_lhs => rw [deviceRead, if_pos rfl]
    conv_rhs => rw [deviceRead, if_pos rfl]
  | case2 d off need h1 hpool fo hfo ar ih =>
    intro hag
    have hfo1 : WhitenedChunkSize ≤ (fetchRaw s1 off d.rawPool).1.length := hfo
    have hmono : (fetchRaw s1 off d.rawPool).2 ≤ (deviceRead squeeze s1 d off need).2.2 := by
      rw [deviceRead, if_neg h1, dif_pos hpool, dif_pos hfo1]
      exact deviceRead_off_mono squeeze s1 _ _ _
    have hfr : fetchRaw s1 off d.rawPool = fetchRaw s2 off d.rawPool :=
      fetchRaw_congr s1 s2 off d.rawPool
        (fun i hi => hag i (lt_of_lt_of_le hi hmono))
    have hfo2 : WhitenedChunkSize ≤ (fetchRaw s2 off d.rawPool).1.length := by
      rw [← hfr]
      exact hfo1
    conv_lhs => rw [deviceRead, if_neg h1, dif_pos hpool, dif_pos hfo1]
    conv_rhs => rw [deviceRead, if_neg h1, dif_pos hpool, dif_pos hfo2]
    rw [← hfr]
    apply ih
    intro i hi
    apply hag
    rw [deviceRead, if_neg h1, dif_pos hpool, dif_pos hfo1]
    exact hi
  | case3 d off need h1 hpool fo hshort ih =>
    intro _
    exact absurd (fetchRaw_length s1 off d.rawPool) hshort
  | case4 d off need h1 hpool todo ih =>
    intro hag
    conv_lhs => rw [deviceRead, if_neg h1, dif_neg hpool]
    conv_rhs => rw [deviceRead, if_neg h1, dif_neg hpool]
    dsimp only
    have hres : deviceRead squeeze s1
        ⟨d.pool.drop (min d.pool.length need), d.rawPool, d.absorbed⟩ off
        (need - min d.pool.length need) =
        deviceRead squeeze s2
        ⟨d.pool.drop (min d.pool.length need), d.rawPool, d.absorbed⟩ off
        (need - min d.pool.length need) := by
      apply ih
      intro i hi
      apply hag
      rw [deviceRead, if_neg h1, dif_neg hpool]
      exact hi
    rw [hres]

/-- C9: whitening is deterministic and all randomness comes from the raw
transport input — for ANY deterministic squeeze function, two `Device.Read`
runs from a freshly constructed device over transport streams that agree
on the consumed prefix deliver byte-identical whitened output. -/
theorem whitener_deterministic (squeeze : List (List ℕ) → ℕ → ℕ) (need : ℕ)
    (s1 s2 : ℕ → ℕ)
    (hag : ∀ i, i < (deviceRead squeeze s1 freshWDevice 0 need).2.2 → s1 i = s2 i) :
    (deviceRead squeeze s1 freshWDevice 0 need).1 =
      (deviceRead squeeze s2 freshWDevice 0 need).1 := by
  rw [deviceRead_congr squeeze s1 s2 freshWDevice 0 need hag]

/-- C9 (witness): identical (pointwise-equal) zero streams produce the same
whitened output for a 3-byte read. -/
theorem whitener_deterministic_witness :
    (deviceRead (fun _ _ => 0) (fun _ => 0) freshWDevice 0 3).1 =
      (deviceRead (fun _ _ => 0) (fun i => 0 * i) freshWDevice 0 3).1 :=
  whitener_deterministic (fun _ _ => 0) 3 (fun _ => 0) (fun i => 0 * i)
    (fun i _ => (Nat.zero_mul i).symm)

/-- C3 (amended): on a transport error the call aborts and returns that
error unmasked (an error produced by the transport itself), leaving the
internal pools in their last consistent state: the failing fetch mutates
nothing (the fetched bytes are discarded before the raw-pool append), so
every absorbed chunk is still exactly `WhitenedChunkSize` bytes and the
raw pool never exceeds one chunk; an error-free call fills the entire
caller buffer.  A failing call may however return a nonzero partial byte
count together with the error, so calls are NOT all-or-nothing (see the
counterexample).  The first four conjuncts state this for `Device.Read`
(`deviceReadE`), the last two for `Device.ReadRaw` (`readRawScript`). -/
theorem deviceRead_error_contract (squeeze : List (List ℕ) → ℕ → ℕ)
    (tr : ℕ → Except String (ℕ → ℕ)) (d : WDevice) (k need : ℕ) :
    (∀ c ∈ d.absorbed, c.length = WhitenedChunkSize) →
    d.rawPool.length ≤ WhitenedChunkSize →
    (((deviceReadE squeeze tr d k need).2.2.2 = none →
        (deviceReadE squeeze tr d k need).1.length = need) ∧
      (∀ e, (deviceReadE squeeze tr d k need).2.2.2 = some e →
        ∃ j, tr j = Except.error e) ∧
      (∀ c ∈ (deviceReadE squeeze tr d k need).2.1.absorbed,
        c.length = WhitenedChunkSize) ∧
      (deviceReadE squeeze tr d k need).2.1.rawPool.length ≤ WhitenedChunkSize ∧
      ((readRawScript tr k need).2.1 = none →
        (readRawScript tr k need).1.length = need) ∧
      (∀ e, (readRawScript tr k need).2.1 = some e → ∃ j, tr j = Except.error e)) := by
  induction d, k, need using deviceReadE.induct squeeze tr with
  | case1 d k =>
    intro hA hR
    rw [deviceReadE_zero]
    exact ⟨fun _ => rfl, fun e he => absurd he (by simp), hA, hR,
      readRawScript_ok_length tr k 0, readRawScript_err_mem tr k 0⟩
  | case2 d k need h1 hpool hrn fr e hfr =>
    intro hA hR
    have hfr' : (readRawScript tr k (WhitenedChunkSize - d.rawPool.length)).2.1 = some e := hfr
    rw [deviceReadE_err squeeze tr d k need e h1 hpool hrn hfr']
    refine ⟨fun h => absurd h (by simp), ?_, hA, hR,
      readRawScript_ok_length tr k need, readRawScript_err_mem tr k need⟩
    intro e' he'
    simp only [Option.some.injEq] at he'
    rw [← he']
    exact readRawScript_err_mem tr k (WhitenedChunkSize - d.rawPool.length) e hfr'
  | case3 d k need h1 hpool hrn fr hfr rp hr1 ar ih =>
    intro hA hR
    have hfr' : (readRawScript tr k (WhitenedChunkSize - d.rawPool.length)).2.1 = none := hfr
    have hr1' : WhitenedChunkSize ≤
        (d.rawPool ++ (readRawScript tr k (WhitenedChunkSize - d.rawPool.length)).1).length :=
      hr1
    rw [deviceReadE_ok_absorb squeeze tr d k need h1 hpool hrn hfr' hr1']
    have hih := ih ?_ ?_
    · exact ⟨hih.1, hih.2.1, hih.2.2.1, hih.2.2.2.1,
        readRawScript_ok_length tr k need, readRawScript_err_mem tr k need⟩
    · intro c hc
      have har : ar.1 = d.absorbed ++
          [(d.rawPool ++
            (readRawScript tr k (WhitenedChunkSize - d.rawPool.length)).1).take
              WhitenedChunkSize] := rfl
      rw [show ({ pool := ar.2, rawPool := [], absorbed := ar.1 } : WDevice).absorbed = ar.1
        from rfl, har] at hc
      rcases List.mem_append.mp hc with hl | hmem
      · exact hA c hl
      · rw [List.mem_singleton.mp hmem, List.length_take]
        omega
    · simp
  | case4 d k need h1 hpool hrn fr hfr rp hr1 ih =>
    intro hA hR
    exfalso
    apply hr1
    have hlen := readRawScript_ok_length tr k (WhitenedChunkSize - d.rawPool.length) hfr
    show WhitenedChunkSize ≤
      (d.rawPool ++ (readRawScript tr k (WhitenedChunkSize - d.rawPool.length)).1).length
    rw [List.length_append, hlen]
    omega
  | case5 d k need h1 hpool hrn hr2 ar ih =>
    intro hA hR
    rw [deviceReadE_nofetch_absorb squeeze tr d k need h1 hpool hrn hr2]
    have hih := ih ?_ ?_
    · exact ⟨hih.1, hih.2.1, hih.2.2.1, hih.2.2.2.1,
        readRawScript_ok_length tr k need, readRawScript_err_mem tr k need⟩
    · intro c hc
      have har : ar.1 = d.absorbed ++ [d.rawPool.take WhitenedChunkSize] := rfl
      rw [show ({ pool := ar.2, rawPool := [], absorbed := ar.1 } : WDevice).absorbed = ar.1
        from rfl, har] at hc
      rcases List.mem_append.mp hc with hl | hmem
      · exact hA c hl
      · rw [List.mem_singleton.mp hmem, List.length_take]
        omega
    · simp
  | case6 d k need h1 hpool hrn hr2 ih =>
    intro hA hR
    exfalso
    unfold WhitenedChunkSize at hrn hr2
    omega
  | case7 d k need h1 hpool todo ih =>
    intro hA hR
    rw [deviceReadE_drain squeeze tr d k need h1 hpool]
    obtain ⟨ihA, ihB, ihC, ihD, _, _⟩ := ih hA hR
    have hne : d.pool.length ≠ 0 := fun hl => hpool (List.length_eq_zero.mp hl)
    refine ⟨?_, ?_, ihC, ihD,
      readRawScript_ok_length tr k need, readRawScript_err_mem tr k need⟩
    · intro hok
      simp only [List.length_append, List.length_take]
      rw [ihA hok]
      omega
    · intro e he
      exact ihB e he

/-- A transport whose first exchange succeeds (delivering zero bytes) and
whose second exchange fails with the hardware error "io". -/
def failingTransport : ℕ → Except String (ℕ → ℕ) :=
  fun j => if j = 0 then Except.ok (fun _ => 0) else Except.error "io"

/-- A transport that always succeeds, delivering zero bytes. -/
def okTransport : ℕ → Except String (ℕ → ℕ) :=
  fun _ => Except.ok (fun _ => 0)

set_option maxRecDepth 4096 in
/-- C3 (counterexample): a `readRawLocked` call for 4097 bytes over a
transport whose second exchange fails returns 4096 decoded bytes TOGETHER
with the error: the call neither fully succeeds (4096 ≠ 4097) nor fully
fails (4096 ≠ 0), contradicting the all-or-nothing part of the claim. -/
theorem readRaw_partial_fill_on_error :
    (readRawScript failingTransport 0 4097).1.length = 4096 ∧
    (readRawScript failingTransport 0 4097).2.1 = some "io" ∧
    (4096 : ℕ) ≠ 0 ∧ (4096 : ℕ) ≠ 4097 := by
  have hf0 : failingTransport 0 = Except.ok (fun _ => 0) := rfl
  have hf1 : failingTransport 1 = Except.error "io" := rfl
  have h2 : readRawScript failingTransport 1 1 = ([], some "io", 2) := by
    rw [readRawScript]
    rw [if_neg (by norm_num), dif_neg (by decide), hf1]
  rw [readRawScript]
  rw [if_neg (by norm_num), dif_neg (by decide), hf0]
  simp only [List.length_append, List.length_map, List.length_range]
  norm_num [alignDown8, IOBatch, BufLen, h2]

/-- C3 (witness for the amended theorem): an error-free 1-byte
`Device.Read` from a fresh device fills the buffer completely. -/
theorem deviceRead_error_contract_witness :
    (deviceReadE (fun _ _ => 0) okTransport freshWDevice 0 1).1.length = 1 :=
  (deviceRead_error_contract (fun _ _ => 0) okTransport freshWDevice 0 1
    (by intro c hc; simp [freshWDevice] at hc)
    (by simp [freshWDevice, WhitenedChunkSize])).1 (by
      have ha : readRawScript okTransport 1 0 = ([], none, 1) := by
        rw [readRawScript]
        rfl
      have hb : (readRawScript okTransport 0
          (WhitenedChunkSize - freshWDevice.rawPool.length)).2.1 = none := by
        show (readRawScript okTransport 0 2048).2.1 = none
        rw [readRawScript, if_neg (by norm_num), dif_neg (by decide),
          show okTransport 0 = Except.ok (fun _ => 0) from rfl]
        norm_num [alignDown8, IOBatch, BufLen, ha]
      have hlen := readRawScript_ok_length okTransport 0
        (WhitenedChunkSize - freshWDevice.rawPool.length) hb
      have hr1 : WhitenedChunkSize ≤ (freshWDevice.rawPool ++
          (readRawScript okTransport 0
            (WhitenedChunkSize - freshWDevice.rawPool.length)).1).length := by
        rw [List.length_append, hlen, show freshWDevice.rawPool.length = 0 from rfl]
        omega
      rw [deviceReadE_ok_absorb (fun _ _ => 0) okTransport freshWDevice 0 1
        (by norm_num) rfl (by decide) hb hr1]
      generalize har : whitenRound (fun _ _ => 0) freshWDevice.absorbed
        (freshWDevice.rawPool ++ (readRawScript okTransport 0
          (WhitenedChunkSize - freshWDevice.rawPool.length)).1) = ar
      generalize (readRawScript okTransport 0
        (WhitenedChunkSize - freshWDevice.rawPool.length)).2.2 = k1
      have hplen : ar.2.length = WhitenedChunkSize := by
        rw [← har]
        exact whitenRound_pool_length _ _ _
      have hne : ¬ ({ pool := ar.2, rawPool := [], absorbed := ar.1 } : WDevice).pool = [] := by
        intro h
        rw [show ({ pool := ar.2, rawPool := [], absorbed := ar.1 } : WDevice).pool = ar.2
          from rfl] at h
        rw [h] at hplen
        simp [WhitenedChunkSize] at hplen
      rw [deviceReadE_drain (fun _ _ => 0) okTransport _ k1 1 (by norm_num) hne]
      have htodo : min ({ pool := ar.2, rawPool := [], absorbed := ar.1 } :
          WDevice).pool.length 1 = 1 := by
        rw [show ({ pool := ar.2, rawPool := [], absorbed := ar.1 } : WDevice).pool.length =
          ar.2.length from rfl, hplen]
        norm_num [WhitenedChunkSize]
      simp only [htodo]
      rw [show (1 : ℕ) - 1 = 0 from rfl, deviceReadE_zero])

/-- C6 (counterexample): at slot 0 the pattern byte actually built by `New`
is 4 (only the even-slot enable bit `1 << SWEN1`), whereas the claimed
value — enable bit ORed with the address bits ORed with the direction mask
0xED — would be 0xED.  The direction mask is never ORed into the pattern. -/
theorem outPattern_mask_counterexample :
    outPattern 0 = 4 ∧
    ((1 <<< SWEN1) ||| makeAddress (0 % 16) ||| Mask) = 0xED ∧
    outPattern 0 ≠ ((1 <<< SWEN1) ||| makeAddress (0 % 16) ||| Mask) := by
  decide

set_option maxRecDepth 4096 in
/-- C6 (amended): for every slot `i < 512` the built pattern byte carries
the 4-bit address `i mod 16` at positions ADDR0..ADDR3, the sample-enable
bit selected by the slot parity (SWEN2 for odd slots, SWEN1 for even
slots), and nothing else: all of its set bits lie inside the output
direction mask, which is not ORed in. -/
theorem outPattern_spec : ∀ i < BufLen,
    ((outPattern i >>> ADDR0) &&& 1) + 2 * ((outPattern i >>> ADDR1) &&& 1)
      + 4 * ((outPattern i >>> ADDR2) &&& 1) + 8 * ((outPattern i >>> ADDR3) &&& 1) = i % 16 ∧
    ((outPattern i >>> SWEN2) &&& 1 = if i % 2 = 1 then 1 else 0) ∧
    ((outPattern i >>> SWEN1) &&& 1 = if i % 2 = 0 then 1 else 0) ∧
    outPattern i &&& Mask = outPattern i := by
  decide

/-- C6 (witness): the amended pattern characterization at slot 37. -/
theorem outPattern_spec_witness :
    ((outPattern 37 >>> ADDR0) &&& 1) + 2 * ((outPattern 37 >>> ADDR1) &&& 1)
      + 4 * ((outPattern 37 >>> ADDR2) &&& 1) + 8 * ((outPattern 37 >>> ADDR3) &&& 1) = 37 % 16 ∧
    ((outPattern 37 >>> SWEN2) &&& 1 = if 37 % 2 = 1 then 1 else 0) ∧
    ((outPattern 37 >>> SWEN1) &&& 1 = if 37 % 2 = 0 then 1 else 0) ∧
    outPattern 37 &&& Mask = outPattern 37 :=
  outPattern_spec 37 (by norm_num [BufLen])

/-- C7: the synthesized group with the even-slot comparator bit (COMP2) set
at even positions and the odd-slot comparator bit (COMP1) at odd positions
decodes to 0xFF; and decoding is a (deterministic) function of the input
that packs one bit per raw byte MSB-first, taking the comparator channel
selected by the position parity: output bit `7 - j` of decoded byte `i`
equals the comparator bit of raw byte `8*i + j`. -/
theorem decode_characterization :
    decodeRaw [16, 2, 16, 2, 16, 2, 16, 2] = [0xFF] ∧
    ∀ (raw : List ℕ) (i j : ℕ), i < raw.length / 8 → j < 8 →
      (((decodeRaw raw).getD i 0) >>> (7 - j)) &&& 1 = compBit j (raw.getD (8 * i + j) 0) := by
  constructor
  · decide
  · intro raw i j hi hj
    rw [decodeRaw_getD raw i hi, decodeGroup_extract _ j hj, group_getD raw i j hj]

/-- C7 (witness): the bit-level characterization evaluated on the
0xFF-producing group at `i = 0`, `j = 0`. -/
theorem decode_characterization_witness :
    (((decodeRaw [16, 2, 16, 2, 16, 2, 16, 2]).getD 0 0) >>> (7 - 0)) &&& 1 =
      compBit 0 (([16, 2, 16, 2, 16, 2, 16, 2] : List ℕ).getD (8 * 0 + 0) 0) :=
  decode_characterization.2 [16, 2, 16, 2, 16, 2, 16, 2] 0 0 (by decide) (by decide)

/-- C4 (counterexample): at the very first bit (7-bit context 0, no prior
observations for that context), the `Add` body leaves the entropy sum
unchanged at 0; it does not add the claimed 1 bit of surprise. -/
theorem addBit_unseen_not_one_bit :
    initHealth.counts 0 0 = 0 ∧ initHealth.counts 0 1 = 0 ∧
    (addBit initHealth 0 0).entropySum = initHealth.entropySum ∧
    initHealth.entropySum = 0 ∧ ((0 : ℝ) ≠ 0 + 1) := by
  refine ⟨rfl, rfl, ?_, rfl, by norm_num⟩
  unfold addBit initHealth
  norm_num

/-- C4 (amended): for a bit whose 7-bit context has no prior observations
(both counters zero), the surprise computation is skipped entirely: the
bit contributes exactly 0 to the running entropy sum (no 0.5-probability
assumption is applied), while the context/bit counter and the total-bit
count are still incremented. -/
theorem addBit_unseen_contributes_zero (h : HealthCheck) (history bit : ℕ)
    (h0 : h.counts history 0 = 0) (h1 : h.counts history 1 = 0) :
    (addBit h history bit).entropySum = h.entropySum ∧
    (addBit h history bit).counts history bit = h.counts history bit + 1 ∧
    (addBit h history bit).totalBits = h.totalBits + 1 := by
  unfold addBit
  refine ⟨?_, by simp, rfl⟩
  simp [h0, h1]

/-- C4 (witness for the amended theorem): the first bit processed from the
fresh state. -/
theorem addBit_unseen_contributes_zero_witness :
    (addBit initHealth 0 0).entropySum = initHealth.entropySum ∧
    (addBit initHealth 0 0).counts 0 0 = initHealth.counts 0 0 + 1 ∧
    (addBit initHealth 0 0).totalBits = initHealth.totalBits + 1 :=
  addBit_unseen_contributes_zero initHealth 0 0 rfl rfl

/-- C10: for a bit whose context has prior observations but whose observed
value has a zero counter, the computed probability is 0, the `-log2` term
is skipped (the guard `prob > 0` fails), and the bit contributes exactly 0
to the entropy sum, while the context/bit counter and total-bit count are
still incremented. -/
theorem addBit_zero_count_contributes_zero (h : HealthCheck) (history bit : ℕ)
    (hbit : bit ≤ 1)
    (hpos : 0 < h.counts history 0 + h.counts history 1)
    (hzero : h.counts history bit = 0) :
    (addBit h history bit).entropySum = h.entropySum ∧
    (addBit h history bit).counts history bit = h.counts history bit + 1 ∧
    (addBit h history bit).totalBits = h.totalBits + 1 := by
  unfold addBit
  refine ⟨?_, by simp, rfl⟩
  interval_cases bit
  · simp [hpos, hzero]
  · simp [hpos, hzero]

/-- C10 (witness): after one observed 0-bit in context 0, processing a
1-bit in the same context (counter zero) leaves the entropy sum unchanged. -/
theorem addBit_zero_count_contributes_zero_witness :
    (addBit (addBit initHealth 0 0) 0 1).entropySum = (addBit initHealth 0 0).entropySum ∧
    (addBit (addBit initHealth 0 0) 0 1).counts 0 1 = (addBit initHealth 0 0).counts 0 1 + 1 ∧
    (addBit (addBit initHealth 0 0) 0 1).totalBits = (addBit initHealth 0 0).totalBits + 1 :=
  addBit_zero_count_contributes_zero (addBit initHealth 0 0) 0 1 (by norm_num)
    (by simp [addBit, initHealth]) (by simp [addBit, initHealth])

/-- C8: `IsHealthy` is true unconditionally while the total observed bit
count is below the window; once the count reaches the window it holds iff
the entropy-per-bit estimate is within the tolerance band around the
target. -/
theorem IsHealthy_spec (h : HealthCheck) :
    (h.totalBits < h.window → h.IsHealthy) ∧
    (h.window ≤ h.totalBits →
      (h.IsHealthy ↔
        |h.entropySum / (h.totalBits : ℝ) - h.targetEntropy| ≤
          h.targetEntropy * h.tolerance)) := by
  unfold HealthCheck.IsHealthy
  constructor
  · intro hlt
    rw [if_pos hlt]
    trivial
  · intro hge
    rw [if_neg (by omega)]

/-- C8 (witness): a below-window state is healthy; an at-window state is
healthy iff its estimate satisfies the band inequality. -/
theorem IsHealthy_spec_witness :
    initHealth.IsHealthy ∧
    (fullWindowHealth.IsHealthy ↔
      |fullWindowHealth.entropySum / (fullWindowHealth.totalBits : ℝ) -
          fullWindowHealth.targetEntropy| ≤
        fullWindowHealth.targetEntropy * fullWindowHealth.tolerance) :=
  ⟨(IsHealthy_spec initHealth).1 (by norm_num [initHealth]),
    (IsHealthy_spec fullWindowHealth).2 (by norm_num [fullWindowHealth])⟩

/-- Helper: the context component of the `Add` fold is the `contextStep`
fold of the processed bits. -/
theorem foldl_addStep_snd (f : ℕ → ℕ) (l : List ℕ) (p : HealthCheck × ℕ) :
    (l.foldl (fun q i => addStep q (f i)) p).2 = (l.map f).foldl contextStep p.2 := by
  induction l generalizing p with
  | nil => rfl
  | cons x xs ih =>
    simp only [List.foldl_cons, List.map_cons]
    exact ih (addStep p (f x))

/-- Helper: processing one byte advances the context by that byte's bits. -/
theorem addByte_snd (p : HealthCheck × ℕ) (b : ℕ) :
    (addByte p b).2 = (byteBits b).foldl contextStep p.2 :=
  foldl_addStep_snd (fun i => (b >>> (7 - i)) &&& 1) (List.range 8) p

/-- Helper: processing a byte sequence advances the context by the
concatenation of the bytes' bits. -/
theorem foldl_addByte_snd (data : List ℕ) (p : HealthCheck × ℕ) :
    (data.foldl addByte p).2 = ((data.map byteBits).flatten).foldl contextStep p.2 := by
  induction data generalizing p with
  | nil => rfl
  | cons x xs ih =>
    simp only [List.foldl_cons, List.map_cons, List.flatten_cons, List.foldl_append]
    rw [ih, addByte_snd]

set_option maxRecDepth 4096 in
/-- C5 (counterexample): the 7-bit context does NOT persist across `Add`
calls.  If it did, processing [0xFF] twice would update the same counters
as processing [0xFF, 0xFF] once; instead the two-call run increments the
all-zero context twice (each call restarts `history` at 0), while the
concatenated run increments it once. -/
theorem add_context_not_cumulative :
    ((initHealth.Add [255]).Add [255]).counts 0 1 = 2 ∧
    (initHealth.Add [255, 255]).counts 0 1 = 1 ∧ (2 : ℕ) ≠ 1 := by
  have hr : List.range 8 = [0, 1, 2, 3, 4, 5, 6, 7] := rfl
  refine ⟨?_, ?_, by norm_num⟩
  · simp [HealthCheck.Add, addByte, addStep, addBit, contextStep, initHealth, hr]
  · simp [HealthCheck.Add, addByte, addStep, addBit, contextStep, initHealth, hr]

/-- C5 (amended): within a single `Add` call the context used for each bit
is the preceding bits OF THAT CALL, maintained by shifting left and
keeping the low 7 bits (`contextStep st bit = (2*st + bit) % 128`), with
the context restarting at 0 at the beginning of every call; bits from
earlier `Add` calls do not enter the context (only the counters are
cumulative across calls). -/
theorem Add_context_resets_and_shifts :
    (∀ (h : HealthCheck) (data : List ℕ),
      (data.foldl addByte (h, 0)).2 = ((data.map byteBits).flatten).foldl contextStep 0) ∧
    (∀ st bit, bit ≤ 1 → contextStep st bit = (2 * st + bit) % 128) := by
  constructor
  · intro h data
    exact foldl_addByte_snd data (h, 0)
  · intro st bit hbit
    unfold contextStep
    rw [shiftLeft_or_bit st bit hbit]
    have hmod := Nat.and_pow_two_sub_one_eq_mod (2 * st + bit) 7
    norm_num at hmod
    exact hmod

/-- C5 (witness for the amended theorem): one byte, and one concrete
context step. -/
theorem Add_context_resets_and_shifts_witness :
    (([42] : List ℕ).foldl addByte (initHealth, 0)).2 =
      ((([42] : List ℕ).map byteBits).flatten).foldl contextStep 0 ∧
    contextStep 3 1 = (2 * 3 + 1) % 128 :=
  ⟨Add_context_resets_and_shifts.1 initHealth [42],
    Add_context_resets_and_shifts.2 3 1 (by norm_num)⟩

end Infnoise

